import Mathlib

/-!
Verification of the reporting repository's synchronization and
relation-materialization engine against its natural-language specification.

The definitions below are shallow embeddings of the Python source:
  * `src/notion/notion_supabase_sync.py` (incremental sync controller,
    schema manager, upsert writer, column-name normalizer),
  * `src/process/supabase_relations_creator.py` (junction-table naming,
    creation and population),
  * `src/social_client/social_api_client.py` (raw social-API fetch with
    exponential backoff).

External collaborators (the Notion HTTP service, `psycopg2`, the Python
standard library's ISO-datetime parser) are modelled as explicit
parameters or, where the spec pins their contract, from the spec's words;
each such spot is called out in the corresponding doc comment.
-/

namespace Reporting

/-! ## Column-name normalizer (`_normalize_column_name`, notion_supabase_sync.py lines 224-235) -/

/-- One pass of Python's `str.replace` on a double underscore, over the
character list: the leftmost pair of consecutive underscores is collapsed to
a single underscore and scanning resumes after the emitted character
(non-overlapping, left to right). -/
def replaceDoubleUnderscore : List Char → List Char
  | [] => []
  | [c] => [c]
  | c :: d :: rest =>
    if c = '_' ∧ d = '_' then '_' :: replaceDoubleUnderscore rest
    else c :: replaceDoubleUnderscore (d :: rest)

/-- Whether the character list contains two consecutive underscores
(Python's test of a double underscore being a substring). -/
def hasDoubleUnderscore : List Char → Bool
  | [] => false
  | [_] => false
  | c :: d :: rest => (decide (c = '_' ∧ d = '_')) || hasDoubleUnderscore (d :: rest)

/-- The `while` loop body iterator of `_normalize_column_name`: repeat the
replacement while a double underscore remains, with an explicit iteration
budget.  Each replacement of a nonempty string strictly shortens it, so a
budget of the string length is enough; `collapseAux_sufficient` below
proves the loop always exits with no double underscore left. -/
def collapseAux : Nat → List Char → List Char
  | 0, s => s
  | fuel + 1, s =>
    if hasDoubleUnderscore s then collapseAux fuel (replaceDoubleUnderscore s) else s

/-- The `while` loop of `_normalize_column_name` collapsing consecutive
underscores until none remain. -/
def collapseUnderscores (s : List Char) : List Char :=
  collapseAux s.length s

/-- Python's `str.strip` (drop leading and trailing whitespace). -/
def pyStrip (s : List Char) : List Char :=
  ((s.dropWhile Char.isWhitespace).reverse.dropWhile Char.isWhitespace).reverse

/-- The character sanitizer of `_normalize_column_name`: keep alphanumerics
and underscores, replace everything else with an underscore. -/
def sanitizeChar (c : Char) : Char :=
  if c.isAlphanum || c = '_' then c else '_'

/-- The digit guard of `_normalize_column_name`: a name starting with a
digit is prefixed with the literal four characters c, o, l, underscore. -/
def addDigitGuard : List Char → List Char
  | [] => []
  | c :: rest => if c.isDigit then 'c' :: 'o' :: 'l' :: '_' :: c :: rest else c :: rest

/-- `_normalize_column_name` (notion_supabase_sync.py lines 224-235):
lowercase and strip the input, replace every character that is neither
alphanumeric nor an underscore with an underscore, collapse consecutive
underscores, prefix a digit-leading result, and fall back to the fixed
name for an empty result. -/
def normalizeColumnName (name : String) : String :=
  let lowered := (name.data.map Char.toLower)
  let stripped := pyStrip lowered
  let sanitized := stripped.map sanitizeChar
  let collapsed := collapseUnderscores sanitized
  let guarded := addDigitGuard collapsed
  if guarded.isEmpty then "unnamed_column" else String.mk guarded

/-! ## Raw social-API fetch (`get_api_data`, social_api_client.py lines 67-103) -/

/-- The backoff schedule of `get_api_data` (social_api_client.py line 84). -/
def backoffTimes : List Nat := [30, 60, 120, 240, 480]

/-- The retry budget of `get_api_data` (social_api_client.py line 83). -/
def apiRetries : Nat := 5

/-- Outcome of one run of `get_api_data`: the returned payload (if any),
the sequence of sleep durations performed between attempts, and the number
of HTTP requests issued. -/
structure FetchOutcome (α : Type) where
  data : Option α
  sleeps : List Nat
  attempts : Nat
deriving DecidableEq

/-- The retry loop of `get_api_data`: `outcome i` is the result of the
i-th HTTP request (`none` = `RequestException`, modelling the external
`requests` call); `attempt` is the current loop index, `fuel` the
remaining iterations of `range(retries)`.  On failure the loop sleeps
`backoff_times[attempt]` only when another attempt remains, otherwise it
returns no data. -/
def getApiDataAux {α : Type} (outcome : Nat → Option α) : Nat → Nat → FetchOutcome α
  | _, 0 => ⟨none, [], 0⟩
  | attempt, fuel + 1 =>
    match outcome attempt with
    | some d => ⟨some d, [], 1⟩
    | none =>
      if attempt < apiRetries - 1 then
        let r := getApiDataAux outcome (attempt + 1) fuel
        ⟨r.data, backoffTimes.getD attempt 0 :: r.sleeps, r.attempts + 1⟩
      else ⟨none, [], 1⟩

/-- `get_api_data` for one endpoint: run the retry loop from attempt 0
with the full retry budget. -/
def getApiData {α : Type} (outcome : Nat → Option α) : FetchOutcome α :=
  getApiDataAux outcome 0 apiRetries

/-! ## Shared association-list lookup

Python dictionaries and `dict.get` are embedded as association lists keyed
by strings; `plookup` is `dict.get` / `key in dict` (first binding wins,
and all list constructions below keep keys unique). -/

/-- Association-list lookup by string key (Python `dict.get(k)`,
returning `none` when the key is absent). -/
def plookup {β : Type} (c : String) : List (String × β) → Option β
  | [] => none
  | (k, v) :: rest => if k = c then some v else plookup c rest

/-! ## Schema manager (`_get_postgres_type`, `_create_or_alter_table`,
notion_supabase_sync.py lines 269-364) -/

/-- A Python value as observed by the schema manager and the upsert
writer: the closed set of shapes `_transform_page_to_row` can place in a
row (`None`, `bool`, `int`, `float`, `str`) plus an opaque constructor for
any other object (the `jsonb` fallback branch of `_get_postgres_type`).
Float payloads are irrelevant to every claim (only `isinstance` tests are
performed on them), so the constructor carries none. -/
inductive PyVal where
  | none
  | bool (b : Bool)
  | int (n : Int)
  | float
  | str (s : String)
  | obj
deriving DecidableEq

/-- A normalized row: the ordered column-name/value mapping produced by
`_transform_page_to_row` (a Python dict in insertion order). -/
abbrev PyRow : Type := List (String × PyVal)

/-- `_get_postgres_type` (lines 269-289).  `isDt s` stands for Python's
`datetime.fromisoformat(s.replace("Z", "+00:00"))` succeeding — the
standard-library parser is external, so it is passed in as a predicate. -/
def getPostgresType (isDt : String → Bool) : PyVal → String
  | .none => "text"
  | .bool _ => "boolean"
  | .int _ => "bigint"
  | .float => "double precision"
  | .str s => if s.length > 255 then "text"
      else if isDt s then "timestamp with time zone" else "text"
  | .obj => "jsonb"

/-- The first scan of `_create_or_alter_table` (lines 300-304): walk the
rows in order and, per column, record the type of the first non-null value
(`if col not in column_types and val is not None`). -/
def addObservedType (isDt : String → Bool) (acc : List (String × String))
    (p : String × PyVal) : List (String × String) :=
  if (plookup p.1 acc).isNone ∧ p.2 ≠ PyVal.none then
    acc ++ [(p.1, getPostgresType isDt p.2)]
  else acc

/-- `column_types` after the row scan of `_create_or_alter_table`. -/
def inferObservedTypes (isDt : String → Bool) (rows : List PyRow) :
    List (String × String) :=
  rows.foldl (fun acc row => row.foldl (addObservedType isDt) acc) []

/-- `all_columns` of `_create_or_alter_table` (line 297-302): every column
name observed across the rows, in first-occurrence order (the Python code
uses an unordered set; order is irrelevant to every claim). -/
def allColumns (rows : List PyRow) : List String :=
  rows.foldl (fun acc row => row.foldl
    (fun a p => if p.1 ∈ a then a else a ++ [p.1]) acc) []

/-- Python dict assignment `m[c] = t`: overwrite in place when the key
exists, append otherwise. -/
def dictSet (m : List (String × String)) (c t : String) : List (String × String) :=
  if (plookup c m).isSome then
    m.map (fun p => if p.1 = c then (c, t) else p)
  else m ++ [(c, t)]

/-- The five system columns forced by `_create_or_alter_table`
(lines 311-316), in assignment order. -/
def standardColumns : List (String × String) :=
  [("notion_id", "text"),
   ("created_time", "timestamp with time zone"),
   ("last_edited_time", "timestamp with time zone"),
   ("archived", "boolean"),
   ("notion_data_jsonb", "jsonb")]

/-- `column_types` as it stands when DDL is issued: observed first-non-null
types, then `text` defaults for all-null columns, then the forced system
columns. -/
def finalColumnTypes (isDt : String → Bool) (rows : List PyRow) :
    List (String × String) :=
  let observed := inferObservedTypes isDt rows
  let defaulted := (allColumns rows).foldl
    (fun m c => if (plookup c m).isSome then m else m ++ [(c, "text")]) observed
  standardColumns.foldl (fun m p => dictSet m p.1 p.2) defaulted

/-- The first non-null value observed for a column, scanning rows in order
and each row's entries in order — the traversal order of the nested loop
of `_create_or_alter_table`. -/
def firstNonNullValue (rows : List PyRow) (c : String) : Option PyVal :=
  ((rows.flatten.filter
    (fun p => decide (p.1 = c ∧ p.2 ≠ PyVal.none))).head?).map Prod.snd

/-- The CREATE TABLE statement issued when the destination table is absent
(lines 328-347): the inferred columns, the primary key on the identifier,
and the index on the modification timestamp. -/
structure CreatedTable where
  columns : List (String × String)
  primaryKey : String
  indexedColumn : String
deriving DecidableEq

/-- The table created by `_create_or_alter_table` on first sync. -/
def createdTableOf (isDt : String → Bool) (rows : List PyRow) : CreatedTable :=
  ⟨finalColumnTypes isDt rows, "notion_id", "last_edited_time"⟩

/-- One application of `_create_or_alter_table` to the destination table
state (`none` = table absent, `some cols` = existing name/type pairs):
empty row lists return immediately; an absent table is created with the
inferred columns; an existing table gets one ADD COLUMN per inferred
column whose name is not already present (lines 291-364). -/
def createOrAlterTable (isDt : String → Bool)
    (state : Option (List (String × String))) (rows : List PyRow) :
    Option (List (String × String)) :=
  if rows.isEmpty then state
  else
    match state with
    | Option.none => some (finalColumnTypes isDt rows)
    | some existing =>
        some (existing ++ (finalColumnTypes isDt rows).filter
          (fun p => (plookup p.1 existing).isNone))

/-- The column name/type pairs of a destination-table state (`none` =
absent table = no columns). -/
def stateColumns (state : Option (List (String × String))) :
    List (String × String) :=
  state.getD []

/-! ## Upsert writer (`_upsert_rows`, notion_supabase_sync.py lines 366-449) -/

/-- A value as bound into the parameterized INSERT: `dt s` records that the
ISO string `s` was successfully parsed into a timezone-aware datetime. -/
inductive SqlVal where
  | null
  | bool (b : Bool)
  | int (n : Int)
  | float
  | str (s : String)
  | dt (s : String)
  | obj
deriving DecidableEq

/-- The date-shape test of `_upsert_rows` (line 414): length at least 10
with dashes at positions 4 and 7. -/
def dateShaped (s : String) : Bool :=
  decide (s.length ≥ 10) && decide (s.data.getD 4 ' ' = '-') && decide (s.data.getD 7 ' ' = '-')

/-- The per-value conversion of `_upsert_rows` (lines 396-428).  `parseOk`
stands for Python's `datetime.fromisoformat` succeeding on its argument
(external standard library).  Empty strings become NULL; strings in the
two timestamp columns are parsed or dropped to NULL; other date-shaped
strings are parsed (a date without time gets a midnight suffix first) and
kept as strings when parsing fails; everything else passes through. -/
def convertValue (parseOk : String → Bool) (col : String) (v : PyVal) : SqlVal :=
  if v = PyVal.str "" then SqlVal.null
  else
    match v with
    | .str s =>
        if col = "created_time" ∨ col = "last_edited_time" then
          if parseOk (s.replace "Z" "+00:00") then SqlVal.dt s else SqlVal.null
        else if dateShaped s then
          if s.contains 'T' then
            if parseOk (s.replace "Z" "+00:00") then SqlVal.dt s else SqlVal.str s
          else
            if parseOk (s ++ "T00:00:00+00:00") then SqlVal.dt s else SqlVal.str s
        else SqlVal.str s
    | .none => SqlVal.null
    | .bool b => SqlVal.bool b
    | .int n => SqlVal.int n
    | .float => SqlVal.float
    | .obj => SqlVal.obj

/-- The column list of the INSERT statement built by `_upsert_rows`
(line 372): the keys of the first row only. -/
def upsertColumns (rows : List PyRow) : List String :=
  (rows.headD []).map Prod.fst

/-- `row.get(col)` of `_upsert_rows` (line 396): Python `None` when the
column is absent from the row. -/
def getPyValue (row : PyRow) (col : String) : PyVal :=
  (plookup col row).getD PyVal.none

/-- The parameter tuple `_upsert_rows` builds for one row: one converted
value per statement column, in statement-column order. -/
def recordFor (parseOk : String → Bool) (rows : List PyRow) (row : PyRow) :
    List SqlVal :=
  (upsertColumns rows).map (fun c => convertValue parseOk c (getPyValue row c))

/-- All parameter tuples of one `_upsert_rows` call (lines 392-429). -/
def upsertRecords (parseOk : String → Bool) (rows : List PyRow) :
    List (List SqlVal) :=
  rows.map (recordFor parseOk rows)

/-! ## Incremental sync controller (`_get_last_sync_time`, `_query_database`,
`sync_database`, notion_supabase_sync.py lines 115-133 and 451-542) -/

/-- A source record as seen by the watermark logic: its identifier and its
last-modification timestamp (timestamps as naturals; only their order
matters). -/
structure SourceRec where
  notion_id : String
  last_edited : Nat
deriving DecidableEq

/-- The SQL aggregate `MAX(last_edited_time)` over the stored column
values: `none` on an empty table. -/
def sqlMax : List Nat → Option Nat :=
  List.foldl (fun acc t =>
    match acc with
    | Option.none => some t
    | some m => some (max m t)) none

/-- `_get_last_sync_time` (lines 451-483): `none` when the destination
table does not exist, otherwise `MAX(last_edited_time)` recomputed from
the table (`none` again when the table is empty).  The state is the list
of stored `last_edited_time` values (`none` = table absent). -/
def getLastSyncTime (table : Option (List Nat)) : Option Nat :=
  match table with
  | Option.none => none
  | some ts => sqlMax ts

/-- `_query_database` (lines 115-133) composed with the source service:
with a filter the request carries `last_edited_time after t`, and the
service's reply contains the records modified strictly after `t`; without
one a full scan is requested.  The strictly-greater semantics of the
external service's `after` operator is modelled from the spec's fetch
contract (`modified_after` restricts delivery to records past the
watermark). -/
def queryDatabase (source : List SourceRec) (filterAfter : Option Nat) :
    List SourceRec :=
  match filterAfter with
  | Option.none => source
  | some t => source.filter (fun r => t < r.last_edited)

/-- The watermark `sync_database` passes as the modified-after filter
(line 494): ignored under `force_full_sync`, otherwise recomputed from the
destination table. -/
def syncFilter (forceFullSync : Bool) (table : Option (List Nat)) : Option Nat :=
  if forceFullSync then none else getLastSyncTime table

/-- The records one run of `sync_database` fetches and applies: the
paginated query results under the run's watermark filter. -/
def syncAppliedRows (forceFullSync : Bool) (table : Option (List Nat))
    (source : List SourceRec) : List SourceRec :=
  queryDatabase source (syncFilter forceFullSync table)

/-- An observable step of `sync_database` (lines 506-542): fetching one
page of the paginated query, the single `_create_or_alter_table` call, and
the single `_upsert_rows` call, each tagged with the row count involved. -/
inductive SyncEv where
  | fetch (pageIdx : Nat) (nrows : Nat)
  | ensureSchema (nrows : Nat)
  | upsert (nrows : Nat)
deriving DecidableEq

/-- Whether a sync event is the upsert step. -/
def SyncEv.isUpsert : SyncEv → Bool
  | .upsert _ => true
  | _ => false

/-- The event trace of one `sync_database` run over the source's page
sequence: the `while has_more` loop accumulates every page into
`all_rows`, and only after the loop exits are `_create_or_alter_table`
and `_upsert_rows` invoked once on the accumulated rows (nothing when no
rows were found). -/
def syncDatabaseTrace {α : Type} (pages : List (List α)) : List SyncEv :=
  let fetches := (List.range pages.length).zip (pages.map List.length)
    |>.map (fun p => SyncEv.fetch p.1 p.2)
  let total := (pages.map List.length).sum
  fetches ++ (if total = 0 then [] else
    [SyncEv.ensureSchema total, SyncEv.upsert total])

/-- The rows `sync_database` hands to `_upsert_rows`: the concatenation of
every fetched page. -/
def syncAccumulatedRows {α : Type} (pages : List (List α)) : List α :=
  pages.flatten

/-! ## Sync runner exit status (`run_sync_cycle`, `main`,
notion_supabase_sync.py lines 544-625) -/

/-- How one `run_sync_cycle` call ends when its body runs past the two
helper-call sites: the connection was unobtainable (logged, then a plain
`return`), or the per-database loop ran to completion with `synced` of
`total` databases succeeding (each failure is caught inside the loop and
skipped). -/
inductive CycleOutcome where
  | noConnection
  | completed (synced total : Nat)
deriving DecidableEq

/-- A Python positional call: the callee's body result when the positional
argument count matches the callee's parameter count, and the exception
`TypeError` otherwise — Python checks arity before running the body. -/
def pyCall {β : Type} (paramCount argCount : Nat) (body : β) : Except String β :=
  if argCount = paramCount then Except.ok body else Except.error "TypeError"

/-- `run_sync_cycle` (notion_supabase_sync.py lines 544-572) as a function
of its environment: `uploaderConfig` is what the zero-parameter body of
`supabase_uploader.load_db_config` (supabase_uploader.py line 27) would
return, `uploaderConnection` what the one-parameter body of its
`get_db_connection` (line 51) would yield, `dbResults` the per-database
sync outcomes.  The body first evaluates
`load_db_config(self.environment)` — one positional argument to the
imported zero-parameter function — and then
`get_db_connection(db_config, self.environment)` — two positional
arguments to the one-parameter function; an exception raised at either
call site propagates to the caller uncaught, since the `try` starts only
after the connection check.  Past those calls, a missing connection is
logged and returned normally, and each database's own failure is caught
by the loop's `except ... continue`. -/
def runSyncCycle (uploaderConfig : Option Unit)
    (uploaderConnection : Option Unit)
    (dbResults : List (Except String Unit)) : Except String CycleOutcome := do
  let _dbConfig ← pyCall 0 1 uploaderConfig
  let conn ← pyCall 1 2 uploaderConnection
  match conn with
  | Option.none => pure CycleOutcome.noConnection
  | some _ => pure (CycleOutcome.completed
      (dbResults.countP (fun r => r.toOption.isSome)) dbResults.length)

/-- The process exit status of `main --once` (lines 590-625): an exception
during `NotionSupabaseSync(...)` initialization (missing configuration
file, missing source credentials) or during `run_sync_cycle` is caught by
`main`'s handler, logged and re-raised, so the interpreter exits
non-zero; a cycle that returns normally lets `main` fall through to a
normal exit. -/
def mainOnceExitCode (init : Except String Unit)
    (uploaderConfig uploaderConnection : Option Unit)
    (dbResults : List (Except String Unit)) : Nat :=
  match init with
  | Except.error _ => 1
  | Except.ok _ =>
      match runSyncCycle uploaderConfig uploaderConnection dbResults with
      | Except.ok _ => 0
      | Except.error _ => 1

/-! ## Relation extractor and junction materializer
(supabase_relations_creator.py lines 401-686) -/

/-- A value stored at a field key of the `notion_data_jsonb` overflow
blob: a JSON array of related identifiers, or anything else (the SQL
filters on `jsonb_typeof(...) = 'array'`). -/
inductive BlobVal where
  | arr (elems : List String)
  | scalar
deriving DecidableEq

/-- A row of an origin table as the bulk-extraction SQL reads it: its
identifier and its overflow blob (absent field = no entry in the list). -/
structure OriginRow where
  notion_id : String
  blob : List (String × BlobVal)
deriving DecidableEq

/-- One junction row: (origin identifier, relation field name, related
identifier). -/
abbrev JunctionRow : Type := String × String × String

/-- The junction rows the extraction SELECT emits for one origin row: when
the overflow blob holds a non-empty array at the relation field key, one
row per array element via `jsonb_array_elements_text`; nothing otherwise
(the WHERE clause checks non-null, array-typed, positive length). -/
def rowEmissions (field : String) (row : OriginRow) : List JunctionRow :=
  match plookup field row.blob with
  | some (BlobVal.arr elems) =>
      if elems.isEmpty then []
      else elems.map (fun e => (row.notion_id, field, e))
  | _ => []

/-- The rows emitted by the extraction SELECT for one (origin table,
relation field) pair (lines 601-612), in table order. -/
def relationEmissions (tableRows : List OriginRow) (field : String) :
    List JunctionRow :=
  (tableRows.map (rowEmissions field)).flatten

/-- `INSERT ... ON CONFLICT (...) DO NOTHING` into a table with a
uniqueness constraint over the whole row: each emission is appended unless
an equal row is already present; duplicates are silently absorbed, never
an error. -/
def insertOnConflictDoNothing {α : Type} [DecidableEq α]
    (init : List α) (emissions : List α) : List α :=
  emissions.foldl (fun acc e => if e ∈ acc then acc else acc ++ [e]) init

/-- The content of a freshly created junction table after the bulk insert
of one (origin table, relation field) pair. -/
def materializeRelationField (tableRows : List OriginRow) (field : String) :
    List JunctionRow :=
  insertOnConflictDoNothing [] (relationEmissions tableRows field)

/-- Python string comparison, on character lists: lexicographic by code
point (shorter prefix first). -/
def pyListLe : List Char → List Char → Bool
  | [], _ => true
  | _ :: _, [] => false
  | c :: cs, d :: ds => if c = d then pyListLe cs ds else decide (c < d)

/-- Python `s1 <= s2` on strings (lexicographic by code point). -/
def pyStrLe (a b : String) : Bool :=
  pyListLe a.data b.data

/-- Python `sorted` on a two-element string list. -/
def pySortPair (a b : String) : String × String :=
  if pyStrLe a b then (a, b) else (b, a)

/-- The junction tables `create_junction_tables` creates for one relation
spec (lines 425-515): self-referential specs get a single
`<table>_relations` table; distinct tables under the deduplicate policy
get the single alphabetically ordered `<A>_to_<B>` table; without it both
directional tables are created. -/
def junctionTableNames (origin related : String) (dedup : Bool) : List String :=
  if origin = related then [origin ++ "_relations"]
  else if dedup then
    [(pySortPair origin related).1 ++ "_to_" ++ (pySortPair origin related).2]
  else [origin ++ "_to_" ++ related, related ++ "_to_" ++ origin]

/-- The junction table `extract_relations_from_source_tables` inserts into
for one relation spec (lines 596-668): the self table, the alphabetically
ordered shared table under deduplication, or only the forward directional
table otherwise. -/
def extractionTarget (origin related : String) (dedup : Bool) : String :=
  if origin = related then origin ++ "_relations"
  else if dedup then
    (pySortPair origin related).1 ++ "_to_" ++ (pySortPair origin related).2
  else origin ++ "_to_" ++ related

/-- A relation spec: origin table, relation field name, related table
(`RelationSpec` of the spec's data model, after the database-identifier to
table-name mapping has been applied). -/
structure RelationSpec where
  originTable : String
  fieldName : String
  relatedTable : String
deriving DecidableEq

/-- The population step for one relation spec: which junction table is
written and what it then contains, the rows being read from the spec's own
origin table (`FROM "<origin_table>"` in the extraction SQL). -/
def materializeSpec (tables : String → List OriginRow) (spec : RelationSpec)
    (dedup : Bool) : String × List JunctionRow :=
  (extractionTarget spec.originTable spec.relatedTable dedup,
   materializeRelationField (tables spec.originTable) spec.fieldName)

/-! ## Helper lemmas -/

theorem replaceDoubleUnderscore_length_le (s : List Char) :
    (replaceDoubleUnderscore s).length ≤ s.length := by
  induction s using replaceDoubleUnderscore.induct with
  | case1 => simp [replaceDoubleUnderscore]
  | case2 c => simp [replaceDoubleUnderscore]
  | case3 c d rest hcd ih =>
    simp only [replaceDoubleUnderscore, if_pos hcd, List.length_cons]
    omega
  | case4 c d rest hcd ih =>
    simp only [replaceDoubleUnderscore, if_neg hcd, List.length_cons]
    simp only [List.length_cons] at ih
    omega

theorem replaceDoubleUnderscore_length_lt (s : List Char)
    (h : hasDoubleUnderscore s = true) :
    (replaceDoubleUnderscore s).length < s.length := by
  induction s using replaceDoubleUnderscore.induct with
  | case1 => simp [hasDoubleUnderscore] at h
  | case2 c => simp [hasDoubleUnderscore] at h
  | case3 c d rest hcd ih =>
    have := replaceDoubleUnderscore_length_le rest
    simp only [replaceDoubleUnderscore, if_pos hcd, List.length_cons]
    omega
  | case4 c d rest hcd ih =>
    simp only [hasDoubleUnderscore, Bool.or_eq_true, decide_eq_true_eq] at h
    have hdd : hasDoubleUnderscore (d :: rest) = true := by
      rcases h with h | h
      · exact absurd h hcd
      · exact h
    have := ih hdd
    simp only [replaceDoubleUnderscore, if_neg hcd, List.length_cons]
    simp only [List.length_cons] at this
    omega

theorem mem_replaceDoubleUnderscore {c : Char} {s : List Char}
    (h : c ∈ replaceDoubleUnderscore s) : c ∈ s := by
  induction s using replaceDoubleUnderscore.induct with
  | case1 => exact h
  | case2 d => exact h
  | case3 a d rest hcd ih =>
    simp only [replaceDoubleUnderscore, if_pos hcd, List.mem_cons] at h
    rcases h with h | h
    · simp [h, hcd.1]
    · simp [List.mem_cons, ih h]
  | case4 a d rest hcd ih =>
    simp only [replaceDoubleUnderscore, if_neg hcd, List.mem_cons] at h
    rcases h with h | h
    · simp [h]
    · simpa [List.mem_cons] using Or.inr (ih h)

theorem replaceDoubleUnderscore_ne_nil {s : List Char} (h : s ≠ []) :
    replaceDoubleUnderscore s ≠ [] := by
  cases s with
  | nil => exact absurd rfl h
  | cons c rest =>
    cases rest with
    | nil => simp [replaceDoubleUnderscore]
    | cons d ds =>
      simp only [replaceDoubleUnderscore]
      split <;> simp

theorem collapseAux_no_dd :
    ∀ (fuel : Nat) (s : List Char), s.length ≤ fuel + 1 →
      hasDoubleUnderscore (collapseAux fuel s) = false := by
  intro fuel
  induction fuel with
  | zero =>
    intro s hlen
    match s, hlen with
    | [], _ => simp [collapseAux, hasDoubleUnderscore]
    | [c], _ => simp [collapseAux, hasDoubleUnderscore]
    | c :: d :: rest, hlen => simp at hlen
  | succ n ih =>
    intro s hlen
    simp only [collapseAux]
    by_cases h : hasDoubleUnderscore s = true
    · rw [if_pos h]
      have hlt := replaceDoubleUnderscore_length_lt s h
      exact ih _ (by omega)
    · rw [if_neg h]
      simpa using h

theorem mem_collapseAux {c : Char} :
    ∀ (fuel : Nat) (s : List Char), c ∈ collapseAux fuel s → c ∈ s := by
  intro fuel
  induction fuel with
  | zero => intro s h; simpa [collapseAux] using h
  | succ n ih =>
    intro s h
    simp only [collapseAux] at h
    by_cases hd : hasDoubleUnderscore s = true
    · rw [if_pos hd] at h
      exact mem_replaceDoubleUnderscore (ih _ h)
    · rwa [if_neg hd] at h

theorem collapseAux_ne_nil :
    ∀ (fuel : Nat) (s : List Char), s ≠ [] → collapseAux fuel s ≠ [] := by
  intro fuel
  induction fuel with
  | zero => intro s h; simpa [collapseAux] using h
  | succ n ih =>
    intro s h
    simp only [collapseAux]
    by_cases hd : hasDoubleUnderscore s = true
    · rw [if_pos hd]
      exact ih _ (replaceDoubleUnderscore_ne_nil h)
    · rwa [if_neg hd]

theorem collapseUnderscores_no_dd (s : List Char) :
    hasDoubleUnderscore (collapseUnderscores s) = false :=
  collapseAux_no_dd s.length s (by omega)

theorem mem_collapseUnderscores {c : Char} {s : List Char}
    (h : c ∈ collapseUnderscores s) : c ∈ s :=
  mem_collapseAux s.length s h

theorem collapseUnderscores_ne_nil {s : List Char} (h : s ≠ []) :
    collapseUnderscores s ≠ [] :=
  collapseAux_ne_nil s.length s h

theorem all_underscore_no_dd_eq {s : List Char}
    (hall : ∀ c ∈ s, c = '_') (hdd : hasDoubleUnderscore s = false) :
    s = [] ∨ s = ['_'] := by
  match s with
  | [] => exact Or.inl rfl
  | [c] =>
    have := hall c (by simp)
    simp [this]
  | c :: d :: rest =>
    have hc := hall c (by simp)
    have hd := hall d (by simp)
    simp [hasDoubleUnderscore, hc, hd] at hdd

theorem collapseUnderscores_all_underscore {s : List Char} (hne : s ≠ [])
    (hall : ∀ c ∈ s, c = '_') : collapseUnderscores s = ['_'] := by
  have h1 : ∀ c ∈ collapseUnderscores s, c = '_' :=
    fun c hc => hall c (mem_collapseUnderscores hc)
  rcases all_underscore_no_dd_eq h1 (collapseUnderscores_no_dd s) with h | h
  · exact absurd h (collapseUnderscores_ne_nil hne)
  · exact h

theorem sanitizeChar_ok (c : Char) :
    (sanitizeChar c).isAlphanum = true ∨ sanitizeChar c = '_' := by
  unfold sanitizeChar
  split
  · rename_i h
    simp only [Bool.or_eq_true, decide_eq_true_eq] at h
    rcases h with h | h
    · exact Or.inl h
    · exact Or.inr h
  · exact Or.inr rfl

theorem digit_ne_underscore {c : Char} (h : c.isDigit = true) : c ≠ '_' := by
  intro he
  subst he
  simp [Char.isDigit] at h

theorem addDigitGuard_no_dd {l : List Char} (h : hasDoubleUnderscore l = false) :
    hasDoubleUnderscore (addDigitGuard l) = false := by
  cases l with
  | nil => simpa [addDigitGuard] using h
  | cons c rest =>
    simp only [addDigitGuard]
    by_cases hd : c.isDigit = true
    · rw [if_pos hd]
      have hcu : ¬ c = '_' := digit_ne_underscore hd
      simp [hasDoubleUnderscore, h, hcu]
    · rwa [if_neg hd]

theorem addDigitGuard_head {l : List Char} {c : Char}
    (h : (addDigitGuard l).head? = some c) : c.isDigit = false := by
  cases l with
  | nil => simp [addDigitGuard] at h
  | cons a rest =>
    simp only [addDigitGuard] at h
    by_cases hd : a.isDigit = true
    · rw [if_pos hd] at h
      simp only [List.head?_cons, Option.some.injEq] at h
      subst h
      decide
    · rw [if_neg hd] at h
      simp only [List.head?_cons, Option.some.injEq] at h
      subst h
      simpa using hd

theorem mem_addDigitGuard {l : List Char} {c : Char}
    (h : c ∈ addDigitGuard l) : c ∈ l ∨ c ∈ ['c', 'o', 'l', '_'] := by
  cases l with
  | nil => simp [addDigitGuard] at h
  | cons a rest =>
    simp only [addDigitGuard] at h
    by_cases hd : a.isDigit = true
    · rw [if_pos hd] at h
      simp only [List.mem_cons] at h
      rcases h with h | h | h | h | h
      · exact Or.inr (by simp [h])
      · exact Or.inr (by simp [h])
      · exact Or.inr (by simp [h])
      · exact Or.inr (by simp [h])
      · exact Or.inl (by simpa using h)
    · rw [if_neg hd] at h
      exact Or.inl h

theorem addDigitGuard_eq_nil_iff {l : List Char} :
    addDigitGuard l = [] ↔ l = [] := by
  cases l with
  | nil => simp [addDigitGuard]
  | cons a rest =>
    simp only [addDigitGuard]
    split <;> simp

theorem plookup_append {β : Type} (c : String) (l1 l2 : List (String × β)) :
    plookup c (l1 ++ l2) =
      match plookup c l1 with
      | some v => some v
      | Option.none => plookup c l2 := by
  induction l1 with
  | nil => simp [plookup]
  | cons p rest ih =>
    obtain ⟨k, v⟩ := p
    by_cases hk : k = c
    · simp [plookup, hk]
    · simp only [List.cons_append, plookup, if_neg hk]
      exact ih

theorem plookup_eq_none_iff {β : Type} (c : String) (m : List (String × β)) :
    plookup c m = Option.none ↔ c ∉ m.map Prod.fst := by
  induction m with
  | nil => simp [plookup]
  | cons p rest ih =>
    obtain ⟨k, v⟩ := p
    by_cases hk : k = c
    · simp [plookup, hk]
    · simp only [plookup, if_neg hk, List.map_cons, List.mem_cons]
      rw [ih]
      constructor
      · intro h hmem
        rcases hmem with h2 | h2
        · exact hk h2.symm
        · exact h h2
      · intro h h2
        exact h (Or.inr h2)

theorem plookup_isSome_iff {β : Type} (c : String) (m : List (String × β)) :
    (plookup c m).isSome = true ↔ c ∈ m.map Prod.fst := by
  have h := plookup_eq_none_iff c m
  cases hp : plookup c m with
  | none =>
    rw [hp] at h
    simp only [Option.isSome_none, Bool.false_eq_true, false_iff]
    exact h.mp rfl
  | some v =>
    rw [hp] at h
    simp only [Option.isSome_some, true_iff]
    by_contra hmem
    exact absurd (h.mpr hmem) (by simp)

/-! ## C10: the column-name normalizer -/

/-- C10 (amended): for every input, `_normalize_column_name` returns a
non-empty string containing only alphanumerics and underscores, with no
two consecutive underscores and no leading digit; an empty (or
whitespace-only) input yields the fallback name, an input whose stripped
form is non-empty and entirely non-alphanumeric collapses to a single
underscore rather than the fallback, and a digit-leading result is
prefixed as built by the digit guard. -/
theorem normalizeColumnName_spec (name : String) :
    normalizeColumnName name ≠ "" ∧
    (∀ c ∈ (normalizeColumnName name).data, c.isAlphanum = true ∨ c = '_') ∧
    hasDoubleUnderscore (normalizeColumnName name).data = false ∧
    (∀ c, (normalizeColumnName name).data.head? = some c → c.isDigit = false) ∧
    normalizeColumnName "" = "unnamed_column" ∧
    (pyStrip (name.data.map Char.toLower) ≠ [] →
      (∀ c ∈ pyStrip (name.data.map Char.toLower), c.isAlphanum = false) →
      normalizeColumnName name = "_") := by
  have hdef : normalizeColumnName name =
      (if (addDigitGuard (collapseUnderscores
        ((pyStrip (name.data.map Char.toLower)).map sanitizeChar))).isEmpty
       then "unnamed_column"
       else String.mk (addDigitGuard (collapseUnderscores
        ((pyStrip (name.data.map Char.toLower)).map sanitizeChar)))) := rfl
  by_cases hg : (addDigitGuard (collapseUnderscores
      ((pyStrip (name.data.map Char.toLower)).map sanitizeChar))).isEmpty = true
  · rw [hdef, if_pos hg]
    refine ⟨by decide, by decide, by decide, by decide, by decide, ?_⟩
    intro hne hall
    exfalso
    have h1 : (pyStrip (name.data.map Char.toLower)).map sanitizeChar ≠ [] := by
      simpa using hne
    have h2 := collapseUnderscores_ne_nil h1
    rw [List.isEmpty_iff, addDigitGuard_eq_nil_iff] at hg
    exact h2 hg
  · rw [hdef, if_neg hg]
    rw [List.isEmpty_iff] at hg
    refine ⟨?_, ?_, ?_, ?_, by decide, ?_⟩
    · intro h
      exact hg (by simpa using congrArg String.data h)
    · intro c hc
      rcases mem_addDigitGuard hc with h | h
      · have h2 := mem_collapseUnderscores h
        simp only [List.mem_map] at h2
        obtain ⟨d, hd, hrfl⟩ := h2
        subst hrfl
        exact sanitizeChar_ok d
      · simp only [List.mem_cons, List.not_mem_nil] at h
        rcases h with h | h | h | h | h
        all_goals first
          | (subst h; decide)
          | exact absurd h (by simp)
    · exact addDigitGuard_no_dd (collapseUnderscores_no_dd _)
    · intro c hc
      exact addDigitGuard_head hc
    · intro hne hall
      have hsan : ∀ c ∈ (pyStrip (name.data.map Char.toLower)).map sanitizeChar,
          c = '_' := by
        intro c hc
        simp only [List.mem_map] at hc
        obtain ⟨d, hd, hrfl⟩ := hc
        subst hrfl
        unfold sanitizeChar
        have := hall d hd
        split
        · rename_i hcond
          simp only [Bool.or_eq_true, decide_eq_true_eq] at hcond
          rcases hcond with hcond | hcond
          · rw [this] at hcond
            exact absurd hcond (by simp)
          · exact hcond
        · rfl
      have hne2 : (pyStrip (name.data.map Char.toLower)).map sanitizeChar ≠ [] := by
        simpa using hne
      have hcol := collapseUnderscores_all_underscore hne2 hsan
      rw [hcol]
      have : addDigitGuard ['_'] = ['_'] := by decide
      rw [this]

/-- C10 counterexample: the input consisting of the single character `!`
is entirely non-alphanumeric, yet the normalizer returns `_`, not the
`unnamed_column` fallback the claim promises for all-special inputs. -/
theorem normalizeColumnName_counterexample :
    (∀ c ∈ ("!".data), c.isAlphanum = false) ∧
    normalizeColumnName "!" ≠ "unnamed_column" := by
  constructor
  · decide
  · decide

/-- C10 witness: the amended theorem applied at concrete inputs. -/
theorem normalizeColumnName_witness :
    normalizeColumnName "9 total" ≠ "" ∧ normalizeColumnName "!" = "_" := by
  refine ⟨(normalizeColumnName_spec "9 total").1, ?_⟩
  exact (normalizeColumnName_spec "!").2.2.2.2.2 (by decide) (by decide)

/-! ## C8: raw social-API fetch backoff -/

/-- C8: `get_api_data` makes at most 5 request attempts; the sleeps
performed between consecutive failed attempts are exactly the leading
prefix of the 30/60/120/240/480 schedule (one entry per gap, in order);
and when every attempt fails it gives up after the fifth failure with no
data, having slept 30, 60, 120 and 240 seconds. -/
theorem getApiData_spec {α : Type} (outcome : Nat → Option α) :
    backoffTimes = [30, 60, 120, 240, 480] ∧
    (getApiData outcome).attempts ≤ 5 ∧
    (getApiData outcome).sleeps =
      backoffTimes.take ((getApiData outcome).attempts - 1) ∧
    ((∀ i, i < 5 → outcome i = none) →
      getApiData outcome = ⟨none, [30, 60, 120, 240], 5⟩) := by
  refine ⟨rfl, ?_⟩
  cases h0 : outcome 0 with
  | some d =>
    refine ⟨?_, ?_, ?_⟩
    · simp [getApiData, getApiDataAux, apiRetries, h0]
    · simp [getApiData, getApiDataAux, apiRetries, h0, backoffTimes]
    · intro hall
      exact absurd h0 (by simp [hall 0 (by omega)])
  | none =>
    cases h1 : outcome 1 with
    | some d =>
      refine ⟨?_, ?_, ?_⟩
      · simp [getApiData, getApiDataAux, apiRetries, h0, h1]
      · simp [getApiData, getApiDataAux, apiRetries, h0, h1, backoffTimes]
      · intro hall
        exact absurd h1 (by simp [hall 1 (by omega)])
    | none =>
      cases h2 : outcome 2 with
      | some d =>
        refine ⟨?_, ?_, ?_⟩
        · simp [getApiData, getApiDataAux, apiRetries, h0, h1, h2]
        · simp [getApiData, getApiDataAux, apiRetries, h0, h1, h2, backoffTimes]
        · intro hall
          exact absurd h2 (by simp [hall 2 (by omega)])
      | none =>
        cases h3 : outcome 3 with
        | some d =>
          refine ⟨?_, ?_, ?_⟩
          · simp [getApiData, getApiDataAux, apiRetries, h0, h1, h2, h3]
          · simp [getApiData, getApiDataAux, apiRetries, h0, h1, h2, h3, backoffTimes]
          · intro hall
            exact absurd h3 (by simp [hall 3 (by omega)])
        | none =>
          cases h4 : outcome 4 with
          | some d =>
            refine ⟨?_, ?_, ?_⟩
            · simp [getApiData, getApiDataAux, apiRetries, h0, h1, h2, h3, h4]
            · simp [getApiData, getApiDataAux, apiRetries, h0, h1, h2, h3, h4,
                backoffTimes]
            · intro hall
              exact absurd h4 (by simp [hall 4 (by omega)])
          | none =>
            refine ⟨?_, ?_, ?_⟩
            · simp [getApiData, getApiDataAux, apiRetries, h0, h1, h2, h3, h4]
            · simp [getApiData, getApiDataAux, apiRetries, h0, h1, h2, h3, h4,
                backoffTimes]
            · intro _
              simp [getApiData, getApiDataAux, apiRetries, h0, h1, h2, h3, h4,
                backoffTimes]

/-- C8 witness: the theorem applied to the all-failures outcome. -/
theorem getApiData_witness :
    getApiData (fun _ => (none : Option Unit)) =
      ⟨none, [30, 60, 120, 240], 5⟩ :=
  (getApiData_spec (fun _ => (none : Option Unit))).2.2.2 (fun _ _ => rfl)

theorem foldl_nested_eq_flatten {α β : Type} (f : β → α → β) :
    ∀ (rows : List (List α)) (acc : β),
      rows.foldl (fun a row => row.foldl f a) acc = (rows.flatten).foldl f acc := by
  intro rows
  induction rows with
  | nil => intro acc; simp
  | cons r rs ih =>
    intro acc
    simp only [List.foldl_cons, List.flatten_cons, List.foldl_append]
    exact ih _

theorem foldl_addObservedType_plookup (isDt : String → Bool) (c : String) :
    ∀ (l : List (String × PyVal)) (acc : List (String × String)),
      plookup c (l.foldl (addObservedType isDt) acc) =
        match plookup c acc with
        | some t => some t
        | Option.none =>
            ((l.filter (fun p => decide (p.1 = c ∧ p.2 ≠ PyVal.none))).head?).map
              (fun p => getPostgresType isDt p.2) := by
  intro l
  induction l with
  | nil =>
    intro acc
    cases hacc : plookup c acc <;> simp [hacc]
  | cons p rest ih =>
    intro acc
    obtain ⟨k, v⟩ := p
    simp only [List.foldl_cons]
    rw [ih]
    by_cases hkc : k = c
    · subst hkc
      by_cases hv : v = PyVal.none
      · subst hv
        have ha : addObservedType isDt acc (k, PyVal.none) = acc := by
          simp [addObservedType]
        rw [ha]
        simp [List.filter_cons]
      · cases hacc : plookup k acc with
        | some t0 =>
          have ha : addObservedType isDt acc (k, v) = acc := by
            simp [addObservedType, hacc]
          rw [ha, hacc]
        | none =>
          have ha : addObservedType isDt acc (k, v) =
              acc ++ [(k, getPostgresType isDt v)] := by
            simp [addObservedType, hacc, hv]
          rw [ha, plookup_append, hacc]
          simp [plookup, List.filter_cons, hv]
    · have hacc2 : plookup c (addObservedType isDt acc (k, v)) = plookup c acc := by
        unfold addObservedType
        split
        · rw [plookup_append]
          cases hpc : plookup c acc with
          | some t0 => rfl
          | none => simp [plookup, hkc]
        · rfl
      rw [hacc2]
      simp [List.filter_cons, hkc]

theorem plookup_inferObservedTypes (isDt : String → Bool) (rows : List PyRow)
    (c : String) :
    plookup c (inferObservedTypes isDt rows) =
      (firstNonNullValue rows c).map (getPostgresType isDt) := by
  unfold inferObservedTypes firstNonNullValue
  rw [foldl_nested_eq_flatten, foldl_addObservedType_plookup]
  simp only [plookup, Option.map_map]
  rfl

theorem foldl_textDefault_plookup (c : String) :
    ∀ (cols : List String) (m : List (String × String)),
      plookup c (cols.foldl
        (fun m x => if (plookup x m).isSome then m else m ++ [(x, "text")]) m) =
        match plookup c m with
        | some t => some t
        | Option.none => if c ∈ cols then some "text" else Option.none := by
  intro cols
  induction cols with
  | nil =>
    intro m
    cases hm : plookup c m <;> simp [hm]
  | cons a rest ih =>
    intro m
    simp only [List.foldl_cons]
    rw [ih]
    by_cases hac : a = c
    · subst hac
      cases hpa : plookup a m with
      | some t0 => simp [hpa]
      | none =>
        simp only [Option.isSome_none, Bool.false_eq_true, if_false,
          plookup_append, hpa]
        simp [plookup]
    · have h2 : plookup c (if (plookup a m).isSome = true then m else m ++ [(a, "text")])
        = plookup c m := by
        split
        · rfl
        · rw [plookup_append]
          cases hpc : plookup c m with
          | some t0 => rfl
          | none => simp [plookup, hac]
      rw [h2]
      cases hpc : plookup c m with
      | some t0 => simp
      | none => simp [List.mem_cons, Ne.symm hac]

theorem plookup_map_overwrite {c k t : String} (hck : c ≠ k)
    (m : List (String × String)) :
    plookup c (m.map (fun p => if p.1 = k then (k, t) else p)) = plookup c m := by
  induction m with
  | nil => rfl
  | cons p rest ih =>
    obtain ⟨k0, v0⟩ := p
    have hf : (fun p : String × String => if p.1 = k then (k, t) else p) (k0, v0)
        = if k0 = k then (k, t) else (k0, v0) := rfl
    simp only [List.map_cons, hf]
    by_cases h0 : k0 = k
    · rw [if_pos h0]
      simp only [plookup]
      rw [if_neg (fun he => hck he.symm), if_neg (fun he : k0 = c => hck (he ▸ h0))]
      exact ih
    · rw [if_neg h0]
      simp only [plookup]
      by_cases hc0 : k0 = c
      · rw [if_pos hc0, if_pos hc0]
      · rw [if_neg hc0, if_neg hc0]
        exact ih

theorem plookup_map_overwrite_self (k t : String) (m : List (String × String))
    (hs : k ∈ m.map Prod.fst) :
    plookup k (m.map (fun p => if p.1 = k then (k, t) else p)) = some t := by
  induction m with
  | nil => simp at hs
  | cons p rest ih =>
    obtain ⟨k0, v0⟩ := p
    have hf : (fun p : String × String => if p.1 = k then (k, t) else p) (k0, v0)
        = if k0 = k then (k, t) else (k0, v0) := rfl
    simp only [List.map_cons, hf]
    by_cases h0 : k0 = k
    · rw [if_pos h0]
      simp [plookup]
    · rw [if_neg h0]
      have hs2 : k ∈ rest.map Prod.fst := by
        simp only [List.map_cons, List.mem_cons] at hs
        rcases hs with hs | hs
        · exact absurd hs.symm h0
        · exact hs
      simp only [plookup]
      rw [if_neg h0]
      exact ih hs2

theorem plookup_dictSet (m : List (String × String)) (k t c : String) :
    plookup c (dictSet m k t) = if c = k then some t else plookup c m := by
  unfold dictSet
  by_cases hck : c = k
  · subst hck
    rw [if_pos rfl]
    split
    · rename_i hs
      rw [plookup_isSome_iff] at hs
      exact plookup_map_overwrite_self c t m hs
    · rename_i hs
      rw [plookup_append]
      have hnone : plookup c m = Option.none := by
        cases hp : plookup c m with
        | none => rfl
        | some v => exact absurd (by simp [hp]) hs
      rw [hnone]
      simp [plookup]
  · rw [if_neg hck]
    split
    · exact plookup_map_overwrite hck m
    · rw [plookup_append]
      have hkc : ¬ k = c := fun he => hck he.symm
      cases hp : plookup c m with
      | some v => rfl
      | none => simp [plookup, hkc]

theorem plookup_finalColumnTypes_nonstd (isDt : String → Bool) (rows : List PyRow)
    (c : String) (hc : c ∉ standardColumns.map Prod.fst) :
    plookup c (finalColumnTypes isDt rows) =
      match plookup c (inferObservedTypes isDt rows) with
      | some t => some t
      | Option.none => if c ∈ allColumns rows then some "text" else Option.none := by
  simp only [standardColumns, List.map_cons, List.map_nil, List.mem_cons,
    List.not_mem_nil, or_false, not_or] at hc
  obtain ⟨h1, h2, h3, h4, h5⟩ := hc
  unfold finalColumnTypes
  simp only [standardColumns, List.foldl_cons, List.foldl_nil]
  rw [plookup_dictSet, if_neg h5, plookup_dictSet, if_neg h4, plookup_dictSet,
    if_neg h3, plookup_dictSet, if_neg h2, plookup_dictSet, if_neg h1]
  exact foldl_textDefault_plookup c (allColumns rows) (inferObservedTypes isDt rows)

theorem plookup_finalColumnTypes_std (isDt : String → Bool) (rows : List PyRow) :
    plookup "notion_id" (finalColumnTypes isDt rows) = some "text" ∧
    plookup "created_time" (finalColumnTypes isDt rows) =
      some "timestamp with time zone" ∧
    plookup "last_edited_time" (finalColumnTypes isDt rows) =
      some "timestamp with time zone" ∧
    plookup "archived" (finalColumnTypes isDt rows) = some "boolean" ∧
    plookup "notion_data_jsonb" (finalColumnTypes isDt rows) = some "jsonb" := by
  unfold finalColumnTypes
  simp only [standardColumns, List.foldl_cons, List.foldl_nil]
  refine ⟨?_, ?_, ?_, ?_, ?_⟩ <;>
    simp [plookup_dictSet]

theorem mem_foldl_collectKeys (x : String) :
    ∀ (l : List (String × PyVal)) (acc : List String),
      (x ∈ l.foldl (fun a p => if p.1 ∈ a then a else a ++ [p.1]) acc ↔
        x ∈ acc ∨ ∃ v, (x, v) ∈ l) := by
  intro l
  induction l with
  | nil => intro acc; simp
  | cons p rest ih =>
    intro acc
    obtain ⟨k, v⟩ := p
    simp only [List.foldl_cons]
    rw [ih]
    constructor
    · intro h
      rcases h with h | ⟨w, hw⟩
      · by_cases hk : k ∈ acc
        · rw [if_pos hk] at h
          exact Or.inl h
        · rw [if_neg hk] at h
          simp only [List.mem_append, List.mem_singleton] at h
          rcases h with h | h
          · exact Or.inl h
          · exact Or.inr ⟨v, by simp [h]⟩
      · exact Or.inr ⟨w, by simp [hw]⟩
    · intro h
      rcases h with h | ⟨w, hw⟩
      · left
        split
        · exact h
        · simp [h]
      · simp only [List.mem_cons, Prod.mk.injEq] at hw
        rcases hw with ⟨hx, hv⟩ | hw
        · left
          subst hx
          split
          · assumption
          · simp
        · exact Or.inr ⟨w, hw⟩

theorem mem_allColumns_iff (rows : List PyRow) (x : String) :
    x ∈ allColumns rows ↔ ∃ v, (x, v) ∈ rows.flatten := by
  unfold allColumns
  rw [foldl_nested_eq_flatten, mem_foldl_collectKeys]
  simp

theorem firstNonNullValue_some_mem {rows : List PyRow} {c : String} {v : PyVal}
    (h : firstNonNullValue rows c = some v) : c ∈ allColumns rows := by
  unfold firstNonNullValue at h
  cases hh : (rows.flatten.filter
      (fun p => decide (p.1 = c ∧ p.2 ≠ PyVal.none))).head? with
  | none => rw [hh] at h; simp at h
  | some p =>
    have hp : p ∈ rows.flatten.filter (fun q => decide (q.1 = c ∧ q.2 ≠ PyVal.none)) := by
      cases hl : rows.flatten.filter (fun q => decide (q.1 = c ∧ q.2 ≠ PyVal.none)) with
      | nil => rw [hl] at hh; simp at hh
      | cons a rest =>
        rw [hl] at hh
        simp only [List.head?_cons, Option.some.injEq] at hh
        simp [hl, hh]
    rw [List.mem_filter] at hp
    obtain ⟨hmem, hcond⟩ := hp
    simp only [decide_eq_true_eq] at hcond
    rw [mem_allColumns_iff]
    exact ⟨p.2, by rw [← hcond.1]; exact hmem⟩

theorem keys_nodup_foldl_addObservedType (isDt : String → Bool) :
    ∀ (l : List (String × PyVal)) (acc : List (String × String)),
      (acc.map Prod.fst).Nodup →
      ((l.foldl (addObservedType isDt) acc).map Prod.fst).Nodup := by
  intro l
  induction l with
  | nil => intro acc h; simpa using h
  | cons p rest ih =>
    intro acc h
    simp only [List.foldl_cons]
    apply ih
    unfold addObservedType
    split
    · rename_i hcond
      have hk : p.1 ∉ acc.map Prod.fst := by
        rw [← plookup_eq_none_iff]
        cases hp : plookup p.1 acc with
        | none => rfl
        | some v => rw [hp] at hcond; simp at hcond
      simp [List.nodup_append, h, hk]
    · exact h

theorem keys_nodup_foldl_textDefault :
    ∀ (cols : List String) (m : List (String × String)),
      (m.map Prod.fst).Nodup →
      ((cols.foldl
        (fun m x => if (plookup x m).isSome then m else m ++ [(x, "text")]) m).map
          Prod.fst).Nodup := by
  intro cols
  induction cols with
  | nil => intro m h; simpa using h
  | cons a rest ih =>
    intro m h
    simp only [List.foldl_cons]
    apply ih
    split
    · exact h
    · rename_i hcond
      have hk : a ∉ m.map Prod.fst := by
        rw [← plookup_eq_none_iff]
        cases hp : plookup a m with
        | none => rfl
        | some v => rw [hp] at hcond; simp at hcond
      simp [List.nodup_append, h, hk]

theorem keys_dictSet_map (m : List (String × String)) (k t : String) :
    ((m.map (fun p => if p.1 = k then (k, t) else p)).map Prod.fst) =
      m.map Prod.fst := by
  induction m with
  | nil => rfl
  | cons p rest ih =>
    obtain ⟨k0, v0⟩ := p
    have hf : (fun p : String × String => if p.1 = k then (k, t) else p) (k0, v0)
        = if k0 = k then (k, t) else (k0, v0) := rfl
    simp only [List.map_cons, hf]
    by_cases h0 : k0 = k
    · rw [if_pos h0]
      simp [h0, ih]
    · rw [if_neg h0]
      simp [ih]

theorem keys_nodup_dictSet (m : List (String × String)) (k t : String)
    (h : (m.map Prod.fst).Nodup) : ((dictSet m k t).map Prod.fst).Nodup := by
  unfold dictSet
  split
  · rw [keys_dictSet_map]
    exact h
  · rename_i hcond
    have hk : k ∉ m.map Prod.fst := by
      rw [← plookup_eq_none_iff]
      cases hp : plookup k m with
      | none => rfl
      | some v => rw [hp] at hcond; simp at hcond
    simp [List.nodup_append, h, hk]

theorem keys_nodup_finalColumnTypes (isDt : String → Bool) (rows : List PyRow) :
    ((finalColumnTypes isDt rows).map Prod.fst).Nodup := by
  unfold finalColumnTypes inferObservedTypes
  rw [foldl_nested_eq_flatten]
  have h1 := keys_nodup_foldl_addObservedType isDt rows.flatten [] (by simp)
  have h2 := keys_nodup_foldl_textDefault (allColumns rows) _ h1
  simp only [standardColumns, List.foldl_cons, List.foldl_nil]
  exact keys_nodup_dictSet _ _ _ (keys_nodup_dictSet _ _ _ (keys_nodup_dictSet _ _ _
    (keys_nodup_dictSet _ _ _ (keys_nodup_dictSet _ _ _ h2))))

/-! ## C5: column-type inference on table creation -/

/-- C5: when the destination table is absent and the batch is non-empty,
`_create_or_alter_table` creates it with exactly one column per observed
column name; a non-system column's type is the inferred type of the first
non-null value observed for it (in row order, then entry order) and `text`
when every observed value is null; the five system columns are always
present with their fixed types, the identifier is the primary key, and the
modification timestamp is indexed. -/
theorem createTable_spec (isDt : String → Bool) (rows : List PyRow)
    (h : rows ≠ []) :
    createOrAlterTable isDt Option.none rows =
      some (createdTableOf isDt rows).columns ∧
    ((createdTableOf isDt rows).columns.map Prod.fst).Nodup ∧
    (∀ c, (plookup c (createdTableOf isDt rows).columns).isSome = true ↔
      (c ∈ allColumns rows ∨ c ∈ standardColumns.map Prod.fst)) ∧
    (∀ c, c ∈ allColumns rows → c ∉ standardColumns.map Prod.fst →
      plookup c (createdTableOf isDt rows).columns =
        some (match firstNonNullValue rows c with
          | some v => getPostgresType isDt v
          | Option.none => "text")) ∧
    plookup "notion_id" (createdTableOf isDt rows).columns = some "text" ∧
    plookup "created_time" (createdTableOf isDt rows).columns =
      some "timestamp with time zone" ∧
    plookup "last_edited_time" (createdTableOf isDt rows).columns =
      some "timestamp with time zone" ∧
    plookup "archived" (createdTableOf isDt rows).columns = some "boolean" ∧
    plookup "notion_data_jsonb" (createdTableOf isDt rows).columns = some "jsonb" ∧
    (createdTableOf isDt rows).primaryKey = "notion_id" ∧
    (createdTableOf isDt rows).indexedColumn = "last_edited_time" := by
  have hstd := plookup_finalColumnTypes_std isDt rows
  refine ⟨?_, keys_nodup_finalColumnTypes isDt rows, ?_, ?_,
    hstd.1, hstd.2.1, hstd.2.2.1, hstd.2.2.2.1, hstd.2.2.2.2, rfl, rfl⟩
  · have hne : rows.isEmpty = false := by
      cases rows with
      | nil => exact absurd rfl h
      | cons r rs => rfl
    simp [createOrAlterTable, hne, createdTableOf]
  · intro c
    by_cases hc : c ∈ standardColumns.map Prod.fst
    · simp only [standardColumns, List.map_cons, List.map_nil, List.mem_cons,
        List.not_mem_nil, or_false] at hc
      constructor
      · intro _
        right
        simpa [standardColumns] using hc
      · intro _
        rcases hc with hc | hc | hc | hc | hc <;> subst hc <;>
          simp [hstd.1, hstd.2.1, hstd.2.2.1, hstd.2.2.2.1, hstd.2.2.2.2,
            createdTableOf]
    · show (plookup c (finalColumnTypes isDt rows)).isSome = true ↔ _
      rw [plookup_finalColumnTypes_nonstd isDt rows c hc,
        plookup_inferObservedTypes]
      cases hfn : firstNonNullValue rows c with
      | some v =>
        simp only [Option.map_some']
        constructor
        · intro _
          exact Or.inl (firstNonNullValue_some_mem hfn)
        · intro _
          rfl
      | none =>
        simp only [Option.map_none']
        by_cases hm : c ∈ allColumns rows
        · simp [hm, hc]
        · simp [hm, hc]
  · intro c hmem hstdn
    show plookup c (finalColumnTypes isDt rows) = _
    rw [plookup_finalColumnTypes_nonstd isDt rows c hstdn,
      plookup_inferObservedTypes]
    cases hfn : firstNonNullValue rows c with
    | some v => rfl
    | none => simp [hmem]

/-- C5 witness: the theorem applied to a concrete batch with an all-null
column `a` (typed text) and an integer column `b` (typed bigint). -/
theorem createTable_witness :
    plookup "b" (createdTableOf (fun _ => false)
      [[("a", PyVal.none), ("b", PyVal.int 1)]]).columns = some "bigint" ∧
    plookup "a" (createdTableOf (fun _ => false)
      [[("a", PyVal.none), ("b", PyVal.int 1)]]).columns = some "text" := by
  have h := createTable_spec (fun _ => false)
    [[("a", PyVal.none), ("b", PyVal.int 1)]] (by decide)
  constructor
  · exact (h.2.2.2.1 "b" (by decide) (by decide)).trans (by decide)
  · exact (h.2.2.2.1 "a" (by decide) (by decide)).trans (by decide)

/-! ## C6: schema monotonicity -/

/-- C6: one `_create_or_alter_table` call only ever adds columns: every
column name present before is present after, and every existing column
keeps its exact type (never dropped, never retyped), for any prior table
state and any batch of rows. -/
theorem createOrAlterTable_monotone (isDt : String → Bool)
    (state : Option (List (String × String))) (rows : List PyRow) :
    (∀ c, c ∈ (stateColumns state).map Prod.fst →
      c ∈ (stateColumns (createOrAlterTable isDt state rows)).map Prod.fst) ∧
    (∀ c t, plookup c (stateColumns state) = some t →
      plookup c (stateColumns (createOrAlterTable isDt state rows)) = some t) := by
  by_cases hempty : rows.isEmpty = true
  · simp [createOrAlterTable, hempty]
  · cases state with
    | none =>
      constructor
      · intro c hc
        simp [stateColumns] at hc
      · intro c t hc
        simp [stateColumns, plookup] at hc
    | some existing =>
      simp only [createOrAlterTable, hempty, Bool.false_eq_true, if_false,
        stateColumns, Option.getD_some]
      constructor
      · intro c hc
        simp only [List.map_append, List.mem_append]
        exact Or.inl hc
      · intro c t hc
        rw [plookup_append, hc]

/-- C6 witness: the theorem applied to a concrete table and batch. -/
theorem createOrAlterTable_monotone_witness :
    plookup "a" (stateColumns (createOrAlterTable (fun _ => false)
      (some [("a", "text")]) [[("b", PyVal.int 1)]])) = some "text" :=
  (createOrAlterTable_monotone (fun _ => false)
    (some [("a", "text")]) [[("b", PyVal.int 1)]]).2 "a" "text" rfl

/-! ## C9: upsert writer column selection -/

/-- C9: for a non-empty batch, the INSERT's column list is exactly the key
list of the first row, so a column appearing only in a later row is never
part of the statement and its value is never written; each row's parameter
tuple has one converted value per statement column, and a statement column
absent from a given row is bound as NULL for that row. -/
theorem upsertRows_spec (parseOk : String → Bool) (rows : List PyRow)
    (h : rows ≠ []) :
    upsertColumns rows = (rows.head h).map Prod.fst ∧
    (∀ c, c ∉ (rows.head h).map Prod.fst → c ∉ upsertColumns rows) ∧
    upsertRecords parseOk rows = rows.map (fun row =>
      (upsertColumns rows).map (fun c => convertValue parseOk c (getPyValue row c))) ∧
    (∀ row c, row ∈ rows → plookup c row = Option.none →
      convertValue parseOk c (getPyValue row c) = SqlVal.null) := by
  cases rows with
  | nil => exact absurd rfl h
  | cons r rs =>
    refine ⟨rfl, ?_, rfl, ?_⟩
    · intro c hc
      simpa [upsertColumns] using hc
    · intro row c _ habs
      simp [getPyValue, habs, convertValue]

/-- C9 witness: the theorem applied to a concrete two-row batch in which
the second row adds a column `b` (omitted from the statement) and a
concrete batch in which the second row lacks the first row's column `b`
(bound as NULL). -/
theorem upsertRows_witness :
    ("b" ∉ upsertColumns [[("a", PyVal.int 1)], [("a", PyVal.int 2), ("b", PyVal.int 3)]]) ∧
    convertValue (fun _ => false) "b" (getPyValue [("a", PyVal.int 3)] "b") = SqlVal.null := by
  constructor
  · exact (upsertRows_spec (fun _ => false)
      [[("a", PyVal.int 1)], [("a", PyVal.int 2), ("b", PyVal.int 3)]]
      (by decide)).2.1 "b" (by decide)
  · exact (upsertRows_spec (fun _ => false)
      [[("b", PyVal.int 1)], [("a", PyVal.int 3)]] (by decide)).2.2.2
      [("a", PyVal.int 3)] "b" (by decide) rfl

theorem le_foldl_max_init (as : List Nat) : ∀ m : Nat, m ≤ as.foldl max m := by
  induction as with
  | nil => intro m; simp
  | cons a t ih =>
    intro m
    simp only [List.foldl_cons]
    exact le_trans (Nat.le_max_left m a) (ih (max m a))

theorem le_foldl_max_mem (as : List Nat) :
    ∀ (m u : Nat), u ∈ as → u ≤ as.foldl max m := by
  induction as with
  | nil => intro m u h; simp at h
  | cons a t ih =>
    intro m u h
    simp only [List.foldl_cons]
    rcases List.mem_cons.mp h with h | h
    · subst h
      exact le_trans (Nat.le_max_right m u) (le_foldl_max_init t (max m u))
    · exact ih (max m a) u h

theorem foldl_max_mem (as : List Nat) :
    ∀ m : Nat, as.foldl max m = m ∨ as.foldl max m ∈ as := by
  induction as with
  | nil => intro m; exact Or.inl rfl
  | cons a t ih =>
    intro m
    simp only [List.foldl_cons]
    rcases ih (max m a) with h | h
    · rw [h]
      rcases max_choice m a with h2 | h2
      · exact Or.inl h2
      · exact Or.inr (by simp [h2])
    · exact Or.inr (List.mem_cons_of_mem a h)

theorem sqlMax_cons (a : Nat) (as : List Nat) :
    sqlMax (a :: as) = some (as.foldl max a) := by
  have haux : ∀ (l : List Nat) (m : Nat),
      l.foldl (fun acc t =>
        match acc with
        | Option.none => some t
        | some x => some (max x t)) (some m) = some (l.foldl max m) := by
    intro l
    induction l with
    | nil => intro m; rfl
    | cons b t ih => intro m; simpa using ih (max m b)
  simpa [sqlMax] using haux as a

theorem getLastSyncTime_some_iff (ts : List Nat) (t : Nat) :
    getLastSyncTime (some ts) = some t ↔ (t ∈ ts ∧ ∀ u ∈ ts, u ≤ t) := by
  cases ts with
  | nil =>
    simp [getLastSyncTime, sqlMax]
  | cons a as =>
    rw [show getLastSyncTime (some (a :: as)) = sqlMax (a :: as) from rfl,
      sqlMax_cons]
    constructor
    · intro h
      have ht : t = as.foldl max a := by
        simpa using h.symm
      subst ht
      constructor
      · rcases foldl_max_mem as a with h2 | h2
        · rw [h2]; simp
        · exact List.mem_cons_of_mem a h2
      · intro u hu
        rcases List.mem_cons.mp hu with h2 | h2
        · subst h2
          exact le_foldl_max_init as u
        · exact le_foldl_max_mem as a u h2
    · intro ⟨hmem, hub⟩
      have h1 : as.foldl max a ≤ t := by
        rcases foldl_max_mem as a with h2 | h2
        · rw [h2]
          exact hub a (by simp)
        · exact hub _ (List.mem_cons_of_mem a h2)
      have h2 : t ≤ as.foldl max a := by
        rcases List.mem_cons.mp hmem with h3 | h3
        · subst h3
          exact le_foldl_max_init as t
        · exact le_foldl_max_mem as a t h3
      rw [Nat.le_antisymm h1 h2]

/-! ## C1: watermark correctness -/

/-- C1: the modified-after filter `sync_database` sends is the maximum
`last_edited_time` recomputed from the destination table (`none` when the
table is absent or empty, characterized as the stored member that bounds
all others); under that filter exactly the source records with
modification time strictly greater than the watermark are fetched and
applied; under `force_full_sync` the watermark is ignored and a full scan
is requested. -/
theorem watermark_spec (table : Option (List Nat)) (source : List SourceRec)
    (t2 : Nat) :
    (syncFilter true table = Option.none ∧
      syncAppliedRows true table source = source) ∧
    syncFilter false table = getLastSyncTime table ∧
    getLastSyncTime Option.none = Option.none ∧
    getLastSyncTime (some []) = Option.none ∧
    (∀ ts t, getLastSyncTime (some ts) = some t ↔
      (t ∈ ts ∧ ∀ u ∈ ts, u ≤ t)) ∧
    (syncFilter false table = some t2 →
      (∀ r ∈ syncAppliedRows false table source, t2 < r.last_edited) ∧
      (∀ r ∈ source, t2 < r.last_edited →
        r ∈ syncAppliedRows false table source)) := by
  refine ⟨⟨rfl, rfl⟩, rfl, rfl, rfl, getLastSyncTime_some_iff, ?_⟩
  intro hf
  constructor
  · intro r hr
    simp only [syncAppliedRows, hf, queryDatabase, List.mem_filter,
      decide_eq_true_eq] at hr
    exact hr.2
  · intro r hr hlt
    simp only [syncAppliedRows, hf, queryDatabase, List.mem_filter,
      decide_eq_true_eq]
    exact ⟨hr, hlt⟩

/-- C1 witness: the theorem applied to a table storing timestamps 1 and 2
(watermark 2) and a source holding a record modified at 3. -/
theorem watermark_witness : 2 < SourceRec.last_edited ⟨"c", 3⟩ := by
  have h := (watermark_spec (some [1, 2]) [⟨"a", 1⟩, ⟨"c", 3⟩] 2).2.2.2.2.2
  exact (h (by decide)).1 ⟨"c", 3⟩ (by decide)

/-! ## C2: page-at-a-time processing -/

/-- C2 counterexample: with a two-page source, the second page is fetched
while no upsert has yet occurred — the trace runs both fetches first and
performs a single schema-ensure and a single upsert of the accumulated
rows afterwards, contradicting the claim that each page is upserted
before the next page is fetched (and that only one page is ever held). -/
theorem syncTrace_counterexample :
    syncDatabaseTrace [[0], [1]] =
      [SyncEv.fetch 0 1, SyncEv.fetch 1 1, SyncEv.ensureSchema 2,
        SyncEv.upsert 2] ∧
    SyncEv.fetch 1 1 ∈ (syncDatabaseTrace [[0], [1]]).takeWhile
      (fun e => !e.isUpsert) := by
  constructor
  · decide
  · decide

/-- C2 (amended): `sync_database` accumulates every page first — the
trace starts with one fetch per page, there is exactly one upsert event
(none when no rows were found), and when rows exist the whole trace is the
fetches followed by a single schema-ensure and a single upsert carrying
all accumulated rows of the run. -/
theorem syncTrace_spec {α : Type} (pages : List (List α)) :
    ((syncDatabaseTrace pages).countP SyncEv.isUpsert =
      if (pages.map List.length).sum = 0 then 0 else 1) ∧
    ((syncDatabaseTrace pages).take pages.length =
      ((List.range pages.length).zip (pages.map List.length)).map
        (fun p => SyncEv.fetch p.1 p.2)) ∧
    ((pages.map List.length).sum ≠ 0 →
      syncDatabaseTrace pages =
        ((List.range pages.length).zip (pages.map List.length)).map
          (fun p => SyncEv.fetch p.1 p.2)
        ++ [SyncEv.ensureSchema (syncAccumulatedRows pages).length,
            SyncEv.upsert (syncAccumulatedRows pages).length]) := by
  have hlenfe : (((List.range pages.length).zip (pages.map List.length)).map
      (fun p => SyncEv.fetch p.1 p.2)).length = pages.length := by
    simp [List.length_zip]
  have hcount0 : (((List.range pages.length).zip (pages.map List.length)).map
      (fun p => SyncEv.fetch p.1 p.2)).countP SyncEv.isUpsert = 0 := by
    rw [List.countP_eq_zero]
    intro e he
    simp only [List.mem_map] at he
    obtain ⟨p, _, hp⟩ := he
    rw [← hp]
    simp [SyncEv.isUpsert]
  have hflat : (syncAccumulatedRows pages).length = (pages.map List.length).sum := by
    simp [syncAccumulatedRows]
  have htr : syncDatabaseTrace pages =
      ((List.range pages.length).zip (pages.map List.length)).map
        (fun p => SyncEv.fetch p.1 p.2)
      ++ (if (pages.map List.length).sum = 0 then []
          else [SyncEv.ensureSchema (pages.map List.length).sum,
                SyncEv.upsert (pages.map List.length).sum]) := rfl
  refine ⟨?_, ?_, ?_⟩
  · rw [htr, List.countP_append, hcount0]
    by_cases hz : (pages.map List.length).sum = 0
    · simp [hz]
    · simp [hz, SyncEv.isUpsert, List.countP_cons]
  · rw [htr, List.take_left' hlenfe]
  · intro hz
    rw [htr, if_neg hz, hflat]

/-- C2 witness: the amended theorem applied to the two-page source. -/
theorem syncTrace_witness :
    syncDatabaseTrace [[0], [1]] =
      ((List.range 2).zip [1, 1]).map (fun p => SyncEv.fetch p.1 p.2)
        ++ [SyncEv.ensureSchema 2, SyncEv.upsert 2] :=
  (syncTrace_spec [[0], [1]]).2.2 (by decide)

/-! ## C7: exit status of the sync runner -/

/-- C7 (code bug): every `run_sync_cycle` call raises `TypeError` — its
first statement passes one positional argument to the imported
zero-parameter `supabase_uploader.load_db_config` (and the next would
pass two to the one-parameter `get_db_connection`) — so for every
initialization result, every environment and every batch of per-database
outcomes, `main --once` exits non-zero; in particular a run whose
initialization succeeds, whose connection would be available and whose
only table sync fails exits 1, where the claim requires 0.  The
connection check and the failure-absorbing per-database loop that the
claim describes are unreachable. -/
theorem exitCode_typeError_spec (init : Except String Unit)
    (uploaderConfig uploaderConnection : Option Unit)
    (dbResults : List (Except String Unit)) :
    runSyncCycle uploaderConfig uploaderConnection dbResults =
      Except.error "TypeError" ∧
    mainOnceExitCode init uploaderConfig uploaderConnection dbResults = 1 ∧
    mainOnceExitCode (Except.ok ()) (some ()) (some ())
      [Except.error "table sync failed"] ≠ 0 := by
  refine ⟨rfl, ?_, by decide⟩
  cases init with
  | error e => rfl
  | ok u => rfl

theorem mem_insertOnConflictDoNothing {α : Type} [DecidableEq α] (l : List α) :
    ∀ (init : List α) (a : α),
      (a ∈ insertOnConflictDoNothing init l ↔ a ∈ init ∨ a ∈ l) := by
  induction l with
  | nil => intro init a; simp [insertOnConflictDoNothing]
  | cons e t ih =>
    intro init a
    unfold insertOnConflictDoNothing at ih ⊢
    simp only [List.foldl_cons]
    rw [ih]
    by_cases he : e ∈ init
    · rw [if_pos he]
      simp only [List.mem_cons]
      constructor
      · intro h
        rcases h with h | h
        · exact Or.inl h
        · exact Or.inr (Or.inr h)
      · intro h
        rcases h with h | h | h
        · exact Or.inl h
        · exact Or.inl (h ▸ he)
        · exact Or.inr h
    · rw [if_neg he]
      simp only [List.mem_append, List.mem_singleton, List.mem_cons]
      tauto

theorem nodup_insertOnConflictDoNothing {α : Type} [DecidableEq α] (l : List α) :
    ∀ init : List α, init.Nodup → (insertOnConflictDoNothing init l).Nodup := by
  induction l with
  | nil => intro init h; simpa [insertOnConflictDoNothing] using h
  | cons e t ih =>
    intro init h
    unfold insertOnConflictDoNothing at ih ⊢
    simp only [List.foldl_cons]
    by_cases he : e ∈ init
    · rw [if_pos he]
      exact ih init h
    · rw [if_neg he]
      exact ih _ (by simp [List.nodup_append, h, he])

theorem mem_rowEmissions (field : String) (row : OriginRow)
    (oid f rid : String) :
    (oid, f, rid) ∈ rowEmissions field row ↔
      f = field ∧ row.notion_id = oid ∧
        ∃ elems, plookup field row.blob = some (BlobVal.arr elems) ∧
          rid ∈ elems := by
  unfold rowEmissions
  cases hb : plookup field row.blob with
  | none => simp
  | some bv =>
    cases bv with
    | scalar => simp
    | arr elems =>
      by_cases hemp : elems.isEmpty = true
      · have helems : elems = [] := by
          cases elems with
          | nil => rfl
          | cons x xs => simp [List.isEmpty] at hemp
        subst helems
        simp
      · simp only [if_neg hemp, List.mem_map, Prod.mk.injEq,
          Option.some.injEq, BlobVal.arr.injEq]
        constructor
        · rintro ⟨e, he, h1, h2, h3⟩
          exact ⟨h2.symm, h1, elems, rfl, h3 ▸ he⟩
        · rintro ⟨hf, hid, elems1, heq, hrid⟩
          subst heq
          exact ⟨rid, hrid, hid, hf.symm, rfl⟩

theorem mem_relationEmissions (tableRows : List OriginRow) (field : String)
    (oid f rid : String) :
    (oid, f, rid) ∈ relationEmissions tableRows field ↔
      f = field ∧ ∃ row, row ∈ tableRows ∧ row.notion_id = oid ∧
        ∃ elems, plookup field row.blob = some (BlobVal.arr elems) ∧
          rid ∈ elems := by
  unfold relationEmissions
  rw [List.mem_flatten]
  constructor
  · rintro ⟨l, hl, hmem⟩
    rw [List.mem_map] at hl
    obtain ⟨row, hrow, hrfl⟩ := hl
    subst hrfl
    rw [mem_rowEmissions] at hmem
    obtain ⟨hf, hid, elems, hb, hrid⟩ := hmem
    exact ⟨hf, row, hrow, hid, elems, hb, hrid⟩
  · rintro ⟨hf, row, hrow, hid, elems, hb, hrid⟩
    exact ⟨rowEmissions field row, List.mem_map_of_mem _ hrow,
      (mem_rowEmissions field row oid f rid).mpr ⟨hf, hid, elems, hb, hrid⟩⟩

/-! ## C3: relation-set semantics of junction materialization -/

/-- C3: the bulk insert with the uniqueness constraint leaves the junction
table holding each emitted (origin id, field, related id) triple exactly
once — membership matches the emissions, there are no duplicate rows, an
emission exists precisely for array elements stored at the relation field
of an origin row's overflow blob, and the concrete repeated-identifier
array A, A, B yields exactly the two rows A and B. -/
theorem relationMaterialization_spec (tableRows : List OriginRow)
    (field : String) :
    (materializeRelationField tableRows field).Nodup ∧
    (∀ tr, tr ∈ materializeRelationField tableRows field ↔
      tr ∈ relationEmissions tableRows field) ∧
    (∀ oid f rid, (oid, f, rid) ∈ relationEmissions tableRows field ↔
      f = field ∧ ∃ row, row ∈ tableRows ∧ row.notion_id = oid ∧
        ∃ elems, plookup field row.blob = some (BlobVal.arr elems) ∧
          rid ∈ elems) ∧
    materializeRelationField
      [⟨"p1", [("authors", BlobVal.arr ["A", "A", "B"])]⟩] "authors" =
      [("p1", "authors", "A"), ("p1", "authors", "B")] := by
  refine ⟨?_, ?_, mem_relationEmissions tableRows field, by decide⟩
  · exact nodup_insertOnConflictDoNothing _ [] (by simp)
  · intro tr
    unfold materializeRelationField
    rw [mem_insertOnConflictDoNothing]
    simp

theorem pyListLe_total : ∀ x y : List Char,
    pyListLe x y = true ∨ pyListLe y x = true := by
  intro x
  induction x with
  | nil => intro y; exact Or.inl rfl
  | cons c cs ih =>
    intro y
    cases y with
    | nil => exact Or.inr rfl
    | cons d ds =>
      by_cases hcd : c = d
      · subst hcd
        simp only [pyListLe, if_pos rfl]
        exact ih ds
      · simp only [pyListLe, if_neg hcd, if_neg (fun h : d = c => hcd h.symm)]
        rcases lt_trichotomy c d with h | h | h
        · exact Or.inl (by simp [h])
        · exact absurd h hcd
        · exact Or.inr (by simp [h])

theorem pyListLe_antisymm : ∀ x y : List Char,
    pyListLe x y = true → pyListLe y x = true → x = y := by
  intro x
  induction x with
  | nil =>
    intro y h1 h2
    cases y with
    | nil => rfl
    | cons d ds => simp [pyListLe] at h2
  | cons c cs ih =>
    intro y h1 h2
    cases y with
    | nil => simp [pyListLe] at h1
    | cons d ds =>
      by_cases hcd : c = d
      · subst hcd
        simp only [pyListLe, if_pos rfl] at h1 h2
        rw [ih ds h1 h2]
      · simp only [pyListLe, if_neg hcd, if_neg (fun h : d = c => hcd h.symm),
          decide_eq_true_eq] at h1 h2
        exact absurd (lt_trans h1 h2) (lt_irrefl c)

theorem pyStrLe_antisymm {a b : String} (h1 : pyStrLe a b = true)
    (h2 : pyStrLe b a = true) : a = b := by
  cases a with
  | mk la =>
    cases b with
    | mk lb =>
      exact congrArg String.mk (pyListLe_antisymm la lb h1 h2)

theorem pySortPair_le (a b : String) :
    pyStrLe (pySortPair a b).1 (pySortPair a b).2 = true := by
  unfold pySortPair
  by_cases h : pyStrLe a b = true
  · rw [if_pos h]
    exact h
  · rw [if_neg h]
    rcases pyListLe_total a.data b.data with h2 | h2
    · exact absurd h2 h
    · exact h2

theorem pySortPair_comm {a b : String} (hab : a ≠ b) :
    pySortPair a b = pySortPair b a := by
  unfold pySortPair
  by_cases h1 : pyStrLe a b = true
  · by_cases h2 : pyStrLe b a = true
    · exact absurd (pyStrLe_antisymm h1 h2) hab
    · rw [if_pos h1, if_neg h2]
  · by_cases h2 : pyStrLe b a = true
    · rw [if_neg h1, if_pos h2]
    · rcases pyListLe_total a.data b.data with h | h
      · exact absurd h h1
      · exact absurd h h2

/-! ## C4: junction table naming and direction policy -/

/-- C4: the junction names are deterministic — a self-referential spec
yields the single table `<table>_relations`; distinct tables under the
deduplicate policy yield the single `<A>_to_<B>` table with the two names
in alphabetical order (the same table for both directions, so it holds
both directions' facts); without deduplication both directional tables
are created and the extraction for a spec targets only its forward table,
reading rows from the spec's own origin table. -/
theorem junctionNaming_spec (a b : String) (dedup : Bool)
    (tables : String → List OriginRow) (field : String) :
    junctionTableNames a a dedup = [a ++ "_relations"] ∧
    (a ≠ b →
      junctionTableNames a b true =
        [(pySortPair a b).1 ++ "_to_" ++ (pySortPair a b).2] ∧
      pyStrLe (pySortPair a b).1 (pySortPair a b).2 = true ∧
      junctionTableNames a b true = junctionTableNames b a true ∧
      extractionTarget a b true = extractionTarget b a true) ∧
    (a ≠ b →
      junctionTableNames a b false = [a ++ "_to_" ++ b, b ++ "_to_" ++ a] ∧
      extractionTarget a b false = a ++ "_to_" ++ b) ∧
    materializeSpec tables ⟨a, field, b⟩ dedup =
      (extractionTarget a b dedup,
        materializeRelationField (tables a) field) := by
  refine ⟨?_, ?_, ?_, rfl⟩
  · simp [junctionTableNames]
  · intro hab
    refine ⟨?_, pySortPair_le a b, ?_, ?_⟩
    · simp [junctionTableNames, hab]
    · simp [junctionTableNames, hab, Ne.symm hab, pySortPair_comm hab]
    · simp [extractionTarget, hab, Ne.symm hab, pySortPair_comm hab]
  · intro hab
    constructor
    · simp [junctionTableNames, hab]
    · simp [extractionTarget, hab]

/-- C4 witness: the theorem applied to the tables `posts` and `users`:
the deduplicated policy produces the single alphabetically ordered
`posts_to_users` table from either direction, the non-deduplicated policy
produces both directional tables, and a self-referential spec on
`articles` produces `articles_relations`. -/
theorem junctionNaming_witness :
    junctionTableNames "articles" "articles" true = ["articles_relations"] ∧
    junctionTableNames "posts" "users" true = ["posts_to_users"] ∧
    junctionTableNames "users" "posts" true = ["posts_to_users"] ∧
    junctionTableNames "posts" "users" false =
      ["posts_to_users", "users_to_posts"] := by
  have h1 := junctionNaming_spec "articles" "articles" true (fun _ => []) ""
  have h2 := junctionNaming_spec "posts" "users" true (fun _ => []) ""
  refine ⟨h1.1, ?_, ?_, (h2.2.2.1 (by decide)).1⟩
  · exact ((h2.2.1 (by decide)).1).trans (by decide)
  · rw [← (h2.2.1 (by decide)).2.2.1]
    exact ((h2.2.1 (by decide)).1).trans (by decide)

end Reporting
